import Mathlib

/-!
# Verification of the pass-profiler sanitization and scoring core

A shallow embedding, over `List Char`, of the string transformers, the
permutation engine, the profiler configuration resolution and the profile
scoring of the pass-profiler library, together with proofs of the
specified properties.

JavaScript strings are modelled as `List Char`; the regex-driven scanning
loops of the source are translated into explicit left-to-right scanners.
All scanners use a fuel argument (always instantiated with the input
length, which bounds the number of scanning steps) so that every
definition is structurally recursive and kernel-computable.
-/

namespace PassProfiler

/-- JavaScript strings, modelled as lists of characters. -/
abbrev Str := List Char

/-- ASCII lower-casing, modelling `toLowerCase`/`toLocaleLowerCase` as used by
the library (the algorithms reason over the ASCII letter/digit classes). -/
def lowAscii (c : Char) : Char :=
  if 65 ≤ c.toNat ∧ c.toNat ≤ 90 then Char.ofNat (c.toNat + 32) else c

/-- The regex class `[0-9]`. -/
def isDigitCh (c : Char) : Bool := 48 ≤ c.toNat && c.toNat ≤ 57

/-- The regex class `[a-z]` under the `i` flag: any ASCII letter. -/
def isAlphaCh (c : Char) : Bool :=
  (97 ≤ c.toNat && c.toNat ≤ 122) || (65 ≤ c.toNat && c.toNat ≤ 90)

/-- The regex class `[a-z]` (no flags). -/
def isLowerCh (c : Char) : Bool := 97 ≤ c.toNat && c.toNat ≤ 122

/-- The regex class `[A-Z]` (no flags). -/
def isUpperCh (c : Char) : Bool := 65 ≤ c.toNat && c.toNat ≤ 90

/-! ## stripRepeatedStrings

Embeds (from `src/lib/utils/string.ts`):

```
export function stripRepeatedStrings(str: string) {
  let l = 0;
  while (++l <= Math.floor(str.length / 2)) {
    const pattern = new RegExp(`(.{`+l+`})\\1+`, 'gs');
    str = str.replace(pattern, '$1');
  }
  return str;
}
```
-/

/-- Greedy count of consecutive copies of `pat` at the head of `s`:
the number of repetitions consumed by `(.{l})\1+` once anchored. -/
def repCountF (pat : Str) : Nat → Str → Nat
  | 0, _ => 0
  | fuel + 1, s =>
    if pat ≠ [] ∧ s.take pat.length = pat then repCountF pat fuel (s.drop pat.length) + 1
    else 0

/-- One global pass of `str.replace(/(.{l})\1+/gs, '$1')`: scan left to right;
at the first position where the next `l` characters repeat at least once,
consume all consecutive copies greedily and keep a single copy. -/
def collapseF (l : Nat) : Nat → Str → Str
  | 0, s => s
  | fuel + 1, s =>
    match s with
    | [] => []
    | c :: rest =>
      if 1 ≤ l ∧ 2 * l ≤ s.length ∧ s.take l = (s.drop l).take l then
        s.take l ++ collapseF l fuel (s.drop (repCountF (s.take l) s.length s * l))
      else
        c :: collapseF l fuel rest

/-- The `while (++l <= Math.floor(str.length / 2))` loop: pattern lengths grow
from 1 while they do not exceed half of the current string's length. -/
def stripRepF : Nat → Nat → Str → Str
  | 0, _, s => s
  | fuel + 1, l, s =>
    if l ≤ s.length / 2 then stripRepF fuel (l + 1) (collapseF l s.length s) else s

/-- `stripRepeatedStrings`, latest revision of `src/lib/utils/string.ts`. -/
def stripRepeatedStrings (s : Str) : Str := stripRepF (s.length / 2 + 1) 1 s

/-! ## stripSequentialStrings

Embeds the scanner revision:

```
export function stripSequentialStrings(str: string, direction: 1 | -1) {
  const isPairSequential = (letter1, letter2, direction) => {
    const charCode1 = letter1.toLocaleLowerCase().charCodeAt(0);
    const charCode2 = letter2.toLocaleLowerCase().charCodeAt(0);
    return charCode2 - charCode1 === direction;
  };
  let output = '';
  for (let i = 0; i < str.length; i++) { ... }
  return output;
}
```
-/

/-- `isPairSequential`: the lower-cased character codes differ by exactly
`direction`. -/
def isPairSeq (d : Int) (a b : Char) : Bool :=
  ((lowAscii b).toNat : Int) - ((lowAscii a).toNat : Int) = d

/-- Collect the maximal chain of `direction`-sequential characters starting at
`c` (the do-while loop of the source); returns the chain and the unconsumed
remainder of the string. -/
def chainSplit (d : Int) : Char → Str → Str × Str
  | c, [] => ([c], [])
  | c, x :: xs =>
    if isPairSeq d c x then
      let p := chainSplit d x xs
      (c :: p.1, p.2)
    else ([c], x :: xs)

/-- The output-building scan of `stripSequentialStrings`: a chain of length at
least 3 contributes only its first character, a chain of length 2 is copied
whole, other characters are copied unchanged. -/
def stripSeqF (d : Int) : Nat → Str → Str
  | 0, s => s
  | _ + 1, [] => []
  | fuel + 1, c :: rest =>
    match rest with
    | [] => [c]
    | x :: _ =>
      if isPairSeq d c x then
        let p := chainSplit d c rest
        (if 3 ≤ p.1.length then [c] else p.1) ++ stripSeqF d fuel p.2
      else c :: stripSeqF d fuel rest

/-- `stripSequentialStrings`, latest revision of `src/lib/utils/string.ts`. -/
def stripSequentialStrings (s : Str) (d : Int) : Str := stripSeqF d s.length s

/-! ## stripInterleavingPairs

Embeds the revision driven by `/([a-z][0-9]){2,}|([0-9][a-z]){2,}/gi`
with the three 25% bonuses on top of the initial 25% penalty.
-/

/-- Maximal count of leading (letter, digit) pairs: the greedy repetition
count of `([a-z][0-9])` (case-insensitive) at the current position. -/
def ldCount : Str → Nat
  | a :: b :: rest => if isAlphaCh a && isDigitCh b then ldCount rest + 1 else 0
  | _ => 0

/-- Maximal count of leading (digit, letter) pairs. -/
def dlCount : Str → Nat
  | a :: b :: rest => if isDigitCh a && isAlphaCh b then dlCount rest + 1 else 0
  | _ => 0

/-- `match.match(/[a-z]/gi)`: the letters of the match, in order. -/
def lettersOf (m : Str) : Str := m.filter isAlphaCh

/-- `match.match(/[0-9]/g)`: the digits of the match, in order. -/
def digitsOf (m : Str) : Str := m.filter isDigitCh

/-- `char.toLowerCase().charCodeAt(0) - 96`: the 1-indexed alphabet position
of a letter, case-insensitively. -/
def alphaPos (c : Char) : Nat := (lowAscii c).toNat - 96

/-- `+digit`: the numeric value of a digit character. -/
def digitVal (c : Char) : Nat := c.toNat - 48

/-- `digitsMatchLetterPositions`: every letter's 1-indexed alphabet position
equals its paired digit.  (The length guard mirrors the `every` loop reading
`digits[i]`, which yields false when a digit is missing.) -/
def digitsMatchPositions (m : Str) : Bool :=
  (lettersOf m).length ≤ (digitsOf m).length &&
    (List.zip (lettersOf m) (digitsOf m)).all fun p => alphaPos p.1 = digitVal p.2

/-- `similarCaseRegex.test(chars.join(''))`: the (nonempty) letters are all
lowercase, or all uppercase. -/
def sameCase (cs : Str) : Bool :=
  (decide (cs ≠ []) && cs.all isLowerCh) || (decide (cs ≠ []) && cs.all isUpperCh)

/-- One direction of `areCharsSequential`: adjacent lower-cased character
codes differ by exactly `d`. -/
def chainStep (d : Int) : Str → Bool
  | [] => true
  | [_] => true
  | a :: b :: rest => isPairSeq d a b && chainStep d (b :: rest)

/-- `areCharsSequential`: the letters ascend or descend by exactly one
alphabet position at each step (case-insensitively). -/
def charsSequential (cs : Str) : Bool := chainStep 1 cs || chainStep (-1) cs

/-- The reduce over the three bonus booleans, starting from the initial
25% penalty. -/
def penalty (m : Str) : ℚ :=
  [digitsMatchPositions m, sameCase (lettersOf m), charsSequential (lettersOf m)].foldl
    (fun p b => if b then p + 1/4 else p) (1/4)

/-- The replacement the source computes for a matched run `m`:
`match.slice(0, Math.max(1, match.length * (1 - penalty)))` (JavaScript's
`slice` truncates the fractional bound). -/
def replCode (m : Str) : Str :=
  m.take (Nat.floor (max 1 ((m.length : ℚ) * (1 - penalty m))))

/-- The global-replace scan for the interleaving regex, parameterized by the
replacement applied to each matched run: at each position try the
letter-first alternative first, then the digit-first one; a run needs at
least two pairs; otherwise move one character forward. -/
def interScanF (repl : Str → Str) : Nat → Str → Str
  | 0, s => s
  | fuel + 1, s =>
    match s with
    | [] => []
    | c :: rest =>
      if 2 ≤ ldCount s then
        repl (s.take (2 * ldCount s)) ++ interScanF repl fuel (s.drop (2 * ldCount s))
      else if 2 ≤ dlCount s then
        repl (s.take (2 * dlCount s)) ++ interScanF repl fuel (s.drop (2 * dlCount s))
      else c :: interScanF repl fuel rest

/-- `stripInterleavingPairs`, latest revision of `src/lib/utils/string.ts`. -/
def stripInterleavingPairs (s : Str) : Str := interScanF replCode s.length s

/-! ## stripPattern

Embeds `str.replace(re, ($1) => $1[0] ?? '')` where `re` is a global matcher.
The regex engine is abstracted as a leftmost-match oracle
`find : Str → Option (Nat × Nat)` returning the start index and length of the
leftmost match in the searched string, and the literal, case-insensitive
matcher produced by `toRegex(pattern, 'gi')` for a non-regex pattern is
realized concretely as `findLit`.
-/

/-- One global-replace loop: replace the leftmost match by its first
character (or nothing, for an empty match) and continue searching after it;
an empty match advances by one character, as JavaScript's `lastIndex` does. -/
def replaceAllF (find : Str → Option (Nat × Nat)) : Nat → Str → Str
  | 0, s => s
  | fuel + 1, s =>
    match find s with
    | none => s
    | some im =>
      s.take im.1 ++ ((s.drop im.1).take im.2).take 1 ++
        replaceAllF find fuel (s.drop (im.1 + max im.2 1))

/-- `str.replace(re, ($1) => $1[0] ?? '')` with a global matcher `re`. -/
def replaceAll (find : Str → Option (Nat × Nat)) (s : Str) : Str :=
  replaceAllF find (s.length + 1) s

/-- Case-insensitive literal prefix test. -/
def startsWithCI (pat s : Str) : Bool :=
  pat.length ≤ s.length && (s.take pat.length).map lowAscii = pat.map lowAscii

/-- Index of the leftmost case-insensitive occurrence of the literal `pat`. -/
def findCIIdx (pat : Str) : Str → Option Nat
  | [] => if startsWithCI pat [] then some 0 else none
  | c :: rest =>
    if startsWithCI pat (c :: rest) then some 0
    else (findCIIdx pat rest).map (· + 1)

/-- The matcher of an escaped literal pattern compiled with flags `gi`. -/
def findLit (pat : Str) (s : Str) : Option (Nat × Nat) :=
  (findCIIdx pat s).map fun i => (i, pat.length)

/-- `stripPattern(str, toRegex(pattern, 'gi'))` for a literal (non-slash-
delimited, nonempty) rejected pattern. -/
def stripPattern (pat : Str) (s : Str) : Str := replaceAll (findLit pat) s

/-! ## Permutation engine

Embeds `src/lib/utils/array.ts`:

```
export function permute<T>(arr: T[]) {
  function generate<T>(input: T[], output: T[], permutations: T[][]) {
    if (input.length === 0) { permutations.push(output.slice()); }
    let prev: T | null = null;
    for (let i = 0; i < input.length; i++) {
      if (prev === input[i]) continue;
      let newInput = input.slice(0, i).concat(input.slice(i + 1));
      output.push(input[i]);
      generate(newInput, output, permutations);
      output.pop();
      prev = input[i];
    }
    return permutations;
  }
  return generate(arr.sort(), [], []);
}
```

`arr.sort()` (no comparator) stringifies elements and sorts them in place by
UTF-16 code-unit order; it is modelled as a stable insertion sort keyed by an
explicit `key : α → Str`, and the in-place mutation is made observable by
returning the array's final contents alongside the generated permutations.
-/

/-- UTF-16 code-unit lexicographic order on string keys, as used by the
default `Array.prototype.sort` comparator. -/
def lexLeStr : Str → Str → Bool
  | [], _ => true
  | _ :: _, [] => false
  | a :: as, b :: bs =>
    if a.toNat < b.toNat then true
    else if b.toNat < a.toNat then false
    else lexLeStr as bs

/-- Stable insertion of an element into a key-sorted list. -/
def insertByKey (key : α → Str) (x : α) : List α → List α
  | [] => [x]
  | y :: ys => if lexLeStr (key x) (key y) then x :: y :: ys else y :: insertByKey key x ys

/-- The stable, key-based sort performed by `arr.sort()`. -/
def jsSort (key : α → Str) : List α → List α
  | [] => []
  | x :: xs => insertByKey key x (jsSort key xs)

/-- The candidate loop of `generate`: enumerate each still-unused element
together with the input with that element removed, skipping an element that
is identical to the immediately preceding candidate (`prev === input[i]`). -/
def candsAux [DecidableEq α] (seen : List α) (prev : Option α) : List α → List (α × List α)
  | [] => []
  | x :: xs =>
    if prev = some x then candsAux (seen ++ [x]) prev xs
    else (x, seen ++ xs) :: candsAux (seen ++ [x]) (some x) xs

/-- The recursive `generate`: with an empty input the accumulated output is a
finished permutation; otherwise extend the output by every (non-skipped)
candidate in order.  `fuel` is instantiated with the input length. -/
def generateF [DecidableEq α] : Nat → List α → List α → List (List α)
  | 0, _, out => [out]
  | fuel + 1, input, out =>
    if input = [] then [out]
    else (candsAux [] none input).flatMap fun p => generateF fuel p.2 (out ++ [p.1])

/-- `permute(arr)`: the first component is the array's contents after the
call (the in-place `sort`), the second the generated permutation list. -/
def permute [DecidableEq α] (key : α → Str) (arr : List α) : List α × List (List α) :=
  (jsSort key arr, generateF (jsSort key arr).length (jsSort key arr) [])

/-! ## Profiler configuration (latest revision of `password-profiler.ts`) -/

/-- `setupSanitizersList`: all permutations of the configured non-pattern
sanitizers, each prefixed with the pattern-stripping step.  Sanitizer steps
are abstracted to any type with decidable (reference) equality. -/
def setupSanitizersList [DecidableEq α] (key : α → Str) (patternStep : α)
    (sanitizers : List α) : List (List α) :=
  (permute key sanitizers).2.map fun p => patternStep :: p

/-- A strength range `{label, range: [min, max]}`; the upper bound lives in
`WithTop ℚ` because the built-in top bucket ends at `Infinity`. -/
structure StrengthRange where
  label : String
  lo : ℚ
  hi : WithTop ℚ
deriving DecidableEq

/-- `DEFAULT_STRENGTH_RANGES` from `src/lib/constants/strength-map.ts`. -/
def DEFAULT_STRENGTH_RANGES : List StrengthRange :=
  [⟨"Very Weak", 0, (28 : ℚ)⟩,
   ⟨"Weak", 2801/100, (50 : ℚ)⟩,
   ⟨"Reasonable", 5001/100, (60 : ℚ)⟩,
   ⟨"Strong", 6001/100, (80 : ℚ)⟩,
   ⟨"Very Strong", 8001/100, ⊤⟩]

/-- The validation loop of `setupStrengthRanges`: `previousMax ??= min`,
then reject `max < min`, then reject `min <= previousMax`, then carry
`previousMax = max`.  An error carries the offending `[min, max]`. -/
def rangesLoop (previousMax : Option (WithTop ℚ)) :
    List StrengthRange → Except (ℚ × WithTop ℚ) Unit
  | [] => Except.ok ()
  | r :: rs =>
    let pm := previousMax.getD (r.lo : WithTop ℚ)
    if r.hi < (r.lo : WithTop ℚ) then Except.error (r.lo, r.hi)
    else if (r.lo : WithTop ℚ) ≤ pm then Except.error (r.lo, r.hi)
    else rangesLoop (some r.hi) rs

/-- `setupStrengthRanges`: default ranges when the caller supplies none,
otherwise the caller's ranges after running the validation loop
(`throw` is modelled by `Except.error`). -/
def setupStrengthRanges (custom : Option (List StrengthRange)) :
    Except (ℚ × WithTop ℚ) (List StrengthRange) :=
  match custom with
  | none => Except.ok DEFAULT_STRENGTH_RANGES
  | some rs => (rangesLoop none rs).map fun _ => rs

/-! ## Profile scoring (latest revision of `password-profile.ts`) -/

/-- First-occurrence deduplication, the semantics of `[...new Set(xs)]`. -/
def dedupFirstF [DecidableEq α] : Nat → List α → List α
  | 0, l => l
  | _ + 1, [] => []
  | fuel + 1, x :: xs => x :: dedupFirstF fuel (xs.filter fun y => y ≠ x)

/-- `[...new Set(xs)]`. -/
def dedupFirst [DecidableEq α] (l : List α) : List α := dedupFirstF l.length l

/-- The symbol characters of the regex
`` /[`!@#$%^&*()_+\-=\[\]{};':"\\|,.<>\/?~\s]/ `` (written via code points),
without the trailing `\s` class. -/
def symbolChars : Str :=
  [96, 33, 64, 35, 36, 37, 94, 38, 42, 40, 41, 95, 43, 45, 61, 91, 93, 123, 125,
   59, 39, 58, 34, 92, 124, 44, 46, 60, 62, 47, 63, 126].map Char.ofNat

/-- The `\s` class, restricted to its ASCII members. -/
def isSpaceCh (c : Char) : Bool :=
  c.toNat = 32 || c.toNat = 9 || c.toNat = 10 || c.toNat = 13 || c.toNat = 11 || c.toNat = 12

/-- Membership in the symbol character class. -/
def isSymbolCh (c : Char) : Bool := symbolChars.contains c || isSpaceCh c

/-- `hasNumbers`. -/
def hasNumbers (p : Str) : Bool := p.any isDigitCh

/-- `hasLowerCaseLetters`. -/
def hasLowerCaseLetters (p : Str) : Bool := p.any isLowerCh

/-- `hasUpperCaseLetters`. -/
def hasUpperCaseLetters (p : Str) : Bool := p.any isUpperCh

/-- `hasSymbols`. -/
def hasSymbols (p : Str) : Bool := p.any isSymbolCh

/-- `poolSize`: 10 for digits, 34 for symbols, 26 for each letter case,
summed over the classes present in the original password. -/
def poolSize (p : Str) : Nat :=
  (if hasNumbers p then 10 else 0) + (if hasSymbols p then 34 else 0) +
    (if hasLowerCaseLetters p then 26 else 0) + (if hasUpperCaseLetters p then 26 else 0)

/-- `sanitizedVersions`: apply each pipeline (a `reduce` over its sanitizers)
to the password, then deduplicate with `[...new Set(...)]`. -/
def sanitizedVersions (password : Str) (sanitizersList : List (List (Str → Str))) : List Str :=
  dedupFirst (sanitizersList.map fun pipe => pipe.foldl (fun out f => f out) password)

/-- `parseFloat(x.toFixed(2))`, modelled as rounding to 2 decimal places. -/
def round2 (q : ℚ) : ℚ := ((Int.floor (q * 100 + 1/2) : ℤ) : ℚ) / 100

/-- `Math.min(...xs)` on a list that the caller knows to be nonempty (the
source always passes at least one sanitized version; on `[]` JavaScript
would yield `Infinity`, modelled here by an arbitrary default). -/
def jsMin : List ℚ → ℚ
  | [] => 0
  | x :: xs => xs.foldl min x

/-- The `entropy` getter.  `Math.log2` applied to the exact natural
`poolSize ** length` is abstracted as a function `lg`, since the claims
concern which arguments it receives and how its results are aggregated. -/
def entropy (lg : ℕ → ℚ) (strict : Bool) (password : Str)
    (sanitizersList : List (List (Str → Str))) : ℚ :=
  if strict then
    round2 (jsMin ((sanitizedVersions password sanitizersList).map fun v =>
      lg (poolSize password ^ v.length)))
  else
    round2
      (((sanitizedVersions password sanitizersList).foldl
          (fun acc v => acc + lg (poolSize password ^ v.length)) 0) /
        ((sanitizedVersions password sanitizersList).length : ℚ))

/-! ## Specification-side definitions

Definitions written from the words of the specification, to be compared
with the definitions embedded from the source.
-/

/-- The claim's length-reduction fraction for a matched interleaving run:
starts at 25% and gains 25% for each of the three bonus conditions. -/
def fractionClaim (m : Str) : ℚ :=
  1/4 + (if digitsMatchPositions m then 1/4 else 0) +
    (if sameCase (lettersOf m) then 1/4 else 0) +
    (if charsSequential (lettersOf m) then 1/4 else 0)

/-- The claim's rewrite of a matched run: keep a prefix of length
`max(1, floor(matchLength * (1 - totalFraction)))`. -/
def replClaim (m : Str) : Str :=
  m.take (max 1 (Nat.floor ((m.length : ℚ) * (1 - fractionClaim m))))

/-- `stripInterleavingPairs` as the specification describes it: each maximal
interleaved run is rewritten by `replClaim`, characters outside runs are
unchanged. -/
def interleavingSpec (s : Str) : Str := interScanF replClaim s.length s

/-- Which input positions survive `stripSequentialStrings`: a collapsed chain
keeps only its first position, a 2-chain and ordinary characters keep all. -/
def maskOfChain (n : Nat) : List Bool :=
  if 3 ≤ n then true :: List.replicate (n - 1) false else List.replicate n true

/-- The survival mask of the sequential-string scan, computed on (the
lower-cased image of) the input. -/
def keepMaskF (d : Int) : Nat → Str → List Bool
  | 0, s => List.replicate s.length true
  | _ + 1, [] => []
  | fuel + 1, c :: rest =>
    match rest with
    | [] => [true]
    | x :: _ =>
      if isPairSeq d c x then
        maskOfChain (chainSplit d c rest).1.length ++ keepMaskF d fuel (chainSplit d c rest).2
      else true :: keepMaskF d fuel rest

/-- The survival mask of `stripSequentialStrings`. -/
def keepMask (d : Int) (s : Str) : List Bool := keepMaskF d s.length s

/-- Select the characters of `s` at the positions the mask keeps. -/
def maskSelect : List Bool → Str → Str
  | b :: bs, c :: cs => (if b then [c] else []) ++ maskSelect bs cs
  | _, _ => []

/-- A case-insensitive occurrence of the literal `pat` at index `i` of `s`. -/
def occursAtCI (pat s : Str) (i : Nat) : Prop :=
  i + pat.length ≤ s.length ∧
    ((s.drop i).take pat.length).map lowAscii = pat.map lowAscii

/-- The claim's entropy: per sanitized variant `log2(poolSize ^ length)`
with the original password's pool size, aggregated as the minimum (strict)
or the arithmetic mean (otherwise), rounded to 2 decimal places. -/
def entropyClaim (lg : ℕ → ℚ) (strict : Bool) (pool : ℕ) (variants : List Str) : ℚ :=
  round2
    (if strict then ((variants.map fun v => lg (pool ^ v.length)).min?).getD 0
     else (variants.map fun v => lg (pool ^ v.length)).sum / (variants.length : ℚ))

/-- The plain candidate enumeration (no skips): each element together with
the input with that element removed. -/
def enumAll (seen : List α) : List α → List (α × List α)
  | [] => []
  | x :: xs => (x, seen ++ xs) :: enumAll (seen ++ [x]) xs

/-- A concrete sort key used by witness instantiations. -/
def digitKey (n : Nat) : Str := [Char.ofNat (48 + n % 10)]

/-- A constant sort key: models sanitizer entries whose stringifications
coincide (e.g. closures with identical source text), so that the default
`Array.prototype.sort` cannot separate them. -/
def constKey (_ : Nat) : Str := [Char.ofNat 107]

/-! ## Helper lemmas -/

theorem char_toNat_ofNat_valid (n : Nat) (h : n.isValidChar) : (Char.ofNat n).toNat = n := by
  simp [Char.ofNat, h, Char.ofNatAux, Char.toNat, UInt32.toNat, UInt32.ofNatCore]

theorem lowAscii_toNat (c : Char) :
    (lowAscii c).toNat = if 65 ≤ c.toNat ∧ c.toNat ≤ 90 then c.toNat + 32 else c.toNat := by
  unfold lowAscii
  split
  next h =>
    have hv : (c.toNat + 32).isValidChar := Or.inl (by omega)
    simp [char_toNat_ofNat_valid _ hv, h]
  next h => simp [h]

theorem lowAscii_eq_self (c : Char) (hc : ¬(65 ≤ c.toNat ∧ c.toNat ≤ 90)) : lowAscii c = c := by
  simp [lowAscii, hc]

theorem lowAscii_idem (c : Char) : lowAscii (lowAscii c) = lowAscii c := by
  by_cases hc : 65 ≤ c.toNat ∧ c.toNat ≤ 90
  · have hx : (lowAscii c).toNat = c.toNat + 32 := by rw [lowAscii_toNat, if_pos hc]
    exact lowAscii_eq_self _ (by omega)
  · rw [lowAscii_eq_self c hc]
    exact lowAscii_eq_self c hc

theorem isPairSeq_lowAscii (d : Int) (a b : Char) :
    isPairSeq d (lowAscii a) (lowAscii b) = isPairSeq d a b := by
  unfold isPairSeq
  rw [lowAscii_idem, lowAscii_idem]

theorem chainSplit_append (d : Int) (c : Char) (l : Str) :
    (chainSplit d c l).1 ++ (chainSplit d c l).2 = c :: l := by
  induction l generalizing c with
  | nil => simp [chainSplit]
  | cons x xs ih =>
    by_cases h : isPairSeq d c x
    · simp [chainSplit, h, ih x]
    · simp [chainSplit, h]

theorem chainSplit_snd_length_le (d : Int) (c : Char) (l : Str) :
    (chainSplit d c l).2.length ≤ l.length := by
  induction l generalizing c with
  | nil => simp [chainSplit]
  | cons x xs ih =>
    by_cases h : isPairSeq d c x
    · simp only [chainSplit, h, if_true]
      exact le_trans (ih x) (Nat.le_succ _)
    · simp [chainSplit, h]

theorem chainSplit_fst_cons (d : Int) (c : Char) (l : Str) :
    ∃ t, (chainSplit d c l).1 = c :: t := by
  cases l with
  | nil => exact ⟨[], rfl⟩
  | cons x xs =>
    by_cases h : isPairSeq d c x
    · exact ⟨(chainSplit d x xs).1, by simp [chainSplit, h]⟩
    · exact ⟨[], by simp [chainSplit, h]⟩

theorem chainSplit_map_low (d : Int) (c : Char) (l : Str) :
    chainSplit d (lowAscii c) (l.map lowAscii) =
      ((chainSplit d c l).1.map lowAscii, (chainSplit d c l).2.map lowAscii) := by
  induction l generalizing c with
  | nil => simp [chainSplit]
  | cons x xs ih =>
    by_cases h : isPairSeq d c x
    · simp [chainSplit, isPairSeq_lowAscii, h, ih x]
    · simp [chainSplit, isPairSeq_lowAscii, h]

theorem maskOfChain_length (n : Nat) : (maskOfChain n).length = n := by
  unfold maskOfChain
  split
  next h => simp; omega
  next h => simp

theorem maskSelect_append {m1 m2 : List Bool} {l1 l2 : Str} (h : m1.length = l1.length) :
    maskSelect (m1 ++ m2) (l1 ++ l2) = maskSelect m1 l1 ++ maskSelect m2 l2 := by
  induction m1 generalizing l1 with
  | nil =>
    cases l1 with
    | nil => simp [maskSelect]
    | cons c cs => simp at h
  | cons b bs ih =>
    cases l1 with
    | nil => simp at h
    | cons c cs =>
      simp only [List.length_cons, Nat.succ.injEq] at h
      simp [maskSelect, ih h, List.append_assoc]

theorem maskSelect_replicate_true (l : Str) :
    maskSelect (List.replicate l.length true) l = l := by
  induction l with
  | nil => simp [maskSelect]
  | cons c cs ih => simpa [maskSelect, List.replicate_succ] using ih

theorem maskSelect_replicate_false (n : Nat) (l : Str) :
    maskSelect (List.replicate n false) l = [] := by
  induction n generalizing l with
  | zero => cases l <;> simp [maskSelect]
  | succ k ih =>
    cases l with
    | nil => simp [maskSelect, List.replicate_succ]
    | cons c cs => simp [maskSelect, List.replicate_succ, ih]

theorem maskSelect_sublist (m : List Bool) (l : Str) : (maskSelect m l).Sublist l := by
  induction m generalizing l with
  | nil => cases l <;> simp [maskSelect]
  | cons b bs ih =>
    cases l with
    | nil => simp [maskSelect]
    | cons c cs =>
      cases b with
      | true => simpa [maskSelect] using (ih cs).cons₂ c
      | false => simpa [maskSelect] using (ih cs).cons c

theorem stripSeqF_eq_maskSelect (d : Int) :
    ∀ fuel (s : Str), stripSeqF d fuel s = maskSelect (keepMaskF d fuel (s.map lowAscii)) s := by
  intro fuel
  induction fuel with
  | zero =>
    intro s
    simp [stripSeqF, keepMaskF, maskSelect_replicate_true]
  | succ fuel ih =>
    intro s
    match s with
    | [] => simp [stripSeqF, keepMaskF, maskSelect]
    | [c] => simp [stripSeqF, keepMaskF, maskSelect]
    | c :: x :: xs =>
      have hpair : isPairSeq d (lowAscii c) (lowAscii x) = isPairSeq d c x :=
        isPairSeq_lowAscii d c x
      by_cases h : isPairSeq d c x
      · have hsplit := chainSplit_map_low d c (x :: xs)
        simp only [List.map_cons] at hsplit
        simp only [stripSeqF, keepMaskF, List.map_cons, hpair, h, if_true, hsplit]
        rw [List.length_map]
        conv_rhs => rw [← chainSplit_append d c (x :: xs)]
        rw [maskSelect_append (by rw [maskOfChain_length])]
        congr 1
        · obtain ⟨t, ht⟩ := chainSplit_fst_cons d c (x :: xs)
          rw [ht]
          by_cases h3 : 3 ≤ (c :: t).length
          · rw [if_pos h3]
            unfold maskOfChain
            rw [if_pos h3]
            simp [maskSelect, maskSelect_replicate_false]
          · rw [if_neg h3]
            unfold maskOfChain
            rw [if_neg h3]
            exact (maskSelect_replicate_true (c :: t)).symm
        · exact ih _
      · simp only [stripSeqF, keepMaskF, List.map_cons, hpair, h, if_false]
        simp [maskSelect, ih (x :: xs)]

theorem stripSequentialStrings_eq_maskSelect (s : Str) (d : Int) :
    stripSequentialStrings s d = maskSelect (keepMask d (s.map lowAscii)) s := by
  unfold stripSequentialStrings keepMask
  rw [List.length_map]
  exact stripSeqF_eq_maskSelect d s.length s

theorem stripSequentialStrings_sublist (s : Str) (d : Int) :
    (stripSequentialStrings s d).Sublist s := by
  rw [stripSequentialStrings_eq_maskSelect]
  exact maskSelect_sublist _ s

theorem repCountF_pos (pat : Str) (fuel : Nat) (s : Str)
    (h1 : pat ≠ []) (h2 : s.take pat.length = pat) : 1 ≤ repCountF pat (fuel + 1) s := by
  simp [repCountF, h1, h2]

theorem collapseF_length_le (l : Nat) :
    ∀ fuel (s : Str), (collapseF l fuel s).length ≤ s.length := by
  intro fuel
  induction fuel with
  | zero => intro s; simp [collapseF]
  | succ fuel ih =>
    intro s
    match s with
    | [] => simp [collapseF]
    | c :: rest =>
      simp only [collapseF]
      split
      next hm =>
        obtain ⟨hl1, hl2, hpateq⟩ := hm
        rw [List.length_append]
        have hslen : (c :: rest).length = rest.length + 1 := by simp
        have hlle : l ≤ (c :: rest).length := by simp only [hslen]; omega
        have hpat : ((c :: rest).take l).length = l := by
          rw [List.length_take]
          simp only [hslen]
          omega
        have hk : 1 ≤ repCountF ((c :: rest).take l) (c :: rest).length (c :: rest) := by
          have hne : (c :: rest).take l ≠ [] := by
            intro hh
            rw [hh] at hpat
            simp at hpat
            omega
          have htk : (c :: rest).take ((c :: rest).take l).length = (c :: rest).take l := by
            rw [hpat]
          rw [hslen]
          exact repCountF_pos _ _ _ hne htk
        have hrec := ih ((c :: rest).drop
          (repCountF ((c :: rest).take l) (c :: rest).length (c :: rest) * l))
        rw [List.length_drop] at hrec
        have hll : l ≤ repCountF ((c :: rest).take l) (c :: rest).length (c :: rest) * l :=
          Nat.le_mul_of_pos_left l hk
        rw [List.length_take]
        omega
      next hm =>
        rw [List.length_cons]
        exact Nat.succ_le_succ (ih rest)

theorem stripRepF_length_le :
    ∀ fuel l (s : Str), (stripRepF fuel l s).length ≤ s.length := by
  intro fuel
  induction fuel with
  | zero => intro l s; simp [stripRepF]
  | succ fuel ih =>
    intro l s
    by_cases hc : l ≤ s.length / 2
    · simp only [stripRepF, hc, if_true]
      exact le_trans (ih (l + 1) (collapseF l s.length s)) (collapseF_length_le l s.length s)
    · simp [stripRepF, hc]

theorem stripRepeatedStrings_length_le (s : Str) :
    (stripRepeatedStrings s).length ≤ s.length :=
  stripRepF_length_le (s.length / 2 + 1) 1 s

theorem interScanF_length_le (repl : Str → Str) (hr : ∀ m, (repl m).length ≤ m.length) :
    ∀ fuel (s : Str), (interScanF repl fuel s).length ≤ s.length := by
  intro fuel
  induction fuel with
  | zero => intro s; simp [interScanF]
  | succ fuel ih =>
    intro s
    match s with
    | [] => simp [interScanF]
    | c :: rest =>
      by_cases h1 : 2 ≤ ldCount (c :: rest)
      · simp only [interScanF, h1, if_true, List.length_append]
        have ha := hr ((c :: rest).take (2 * ldCount (c :: rest)))
        have hb := ih ((c :: rest).drop (2 * ldCount (c :: rest)))
        rw [List.length_take] at ha
        rw [List.length_drop] at hb
        omega
      · by_cases h2 : 2 ≤ dlCount (c :: rest)
        · simp only [interScanF, h1, h2, if_true, if_false, List.length_append]
          have ha := hr ((c :: rest).take (2 * dlCount (c :: rest)))
          have hb := ih ((c :: rest).drop (2 * dlCount (c :: rest)))
          rw [List.length_take] at ha
          rw [List.length_drop] at hb
          omega
        · simp only [interScanF, h1, h2, if_false, List.length_cons]
          exact Nat.succ_le_succ (ih rest)

theorem replCode_length_le (m : Str) : (replCode m).length ≤ m.length := by
  rw [replCode, List.length_take]
  exact min_le_right _ _

theorem stripInterleavingPairs_length_le (s : Str) :
    (stripInterleavingPairs s).length ≤ s.length :=
  interScanF_length_le replCode replCode_length_le s.length s

theorem replaceAllF_length_le (find : Str → Option (Nat × Nat))
    (wf : ∀ t i m, find t = some (i, m) → i + m ≤ t.length) :
    ∀ fuel (s : Str), (replaceAllF find fuel s).length ≤ s.length := by
  intro fuel
  induction fuel with
  | zero => intro s; simp [replaceAllF]
  | succ fuel ih =>
    intro s
    cases hf : find s with
    | none => simp [replaceAllF, hf]
    | some im =>
      obtain ⟨i, m⟩ := im
      have hwf := wf s i m hf
      simp only [replaceAllF, hf, List.length_append]
      have h1 : (s.take i).length ≤ i := by rw [List.length_take]; omega
      have h1b : (s.take i).length ≤ s.length := by rw [List.length_take]; omega
      have h2 : (((s.drop i).take m).take 1).length ≤ 1 := by
        rw [List.length_take]; omega
      have h2b : (((s.drop i).take m).take 1).length ≤ m := by
        simp only [List.length_take, List.length_drop]
        omega
      have h3 := ih (s.drop (i + max m 1))
      rw [List.length_drop] at h3
      rcases Nat.eq_zero_or_pos m with hm | hm
      · subst hm
        rw [Nat.max_eq_right (by omega : (0 : ℕ) ≤ 1)] at h3 ⊢
        omega
      · rw [Nat.max_eq_left hm] at h3 ⊢
        omega

theorem findCIIdx_bound (pat : Str) :
    ∀ (s : Str) (i : Nat), findCIIdx pat s = some i → i + pat.length ≤ s.length := by
  intro s
  induction s with
  | nil =>
    intro i h
    simp only [findCIIdx] at h
    by_cases hs : startsWithCI pat [] = true
    · rw [if_pos hs] at h
      simp only [startsWithCI, Bool.and_eq_true, decide_eq_true_eq] at hs
      cases h
      simpa using hs.1
    · rw [if_neg hs] at h
      cases h
  | cons c rest ih =>
    intro i h
    simp only [findCIIdx] at h
    by_cases hs : startsWithCI pat (c :: rest) = true
    · rw [if_pos hs] at h
      cases h
      simp only [startsWithCI, Bool.and_eq_true, decide_eq_true_eq] at hs
      simpa using hs.1
    · rw [if_neg hs] at h
      cases hfind : findCIIdx pat rest with
      | none => rw [hfind] at h; cases h
      | some j =>
        rw [hfind] at h
        simp only [Option.map_some'] at h
        cases h
        have := ih j hfind
        simp only [List.length_cons]
        omega

theorem findLit_wf (pat : Str) :
    ∀ (t : Str) (i m : Nat), findLit pat t = some (i, m) → i + m ≤ t.length := by
  intro t i m h
  simp only [findLit] at h
  cases hfind : findCIIdx pat t with
  | none => rw [hfind] at h; cases h
  | some j =>
    rw [hfind] at h
    simp only [Option.map_some'] at h
    cases h
    exact findCIIdx_bound pat t _ hfind

theorem penalty_eq_fractionClaim (m : Str) : penalty m = fractionClaim m := by
  cases h1 : digitsMatchPositions m <;> cases h2 : sameCase (lettersOf m) <;>
    cases h3 : charsSequential (lettersOf m) <;>
      simp [penalty, fractionClaim, h1, h2, h3]

theorem penalty_le_one (m : Str) : penalty m ≤ 1 := by
  cases h1 : digitsMatchPositions m <;> cases h2 : sameCase (lettersOf m) <;>
    cases h3 : charsSequential (lettersOf m) <;>
      simp [penalty, h1, h2, h3] <;> norm_num

theorem floor_max_one (q : ℚ) : Nat.floor (max 1 q) = max 1 (Nat.floor q) := by
  rcases le_or_lt 1 q with h | h
  · rw [max_eq_right h]
    have h1 : 1 ≤ Nat.floor q := Nat.le_floor (by exact_mod_cast h)
    rw [max_eq_right h1]
  · rw [max_eq_left h.le]
    rw [Nat.floor_eq_zero.mpr h]
    simp

theorem replCode_eq_replClaim (m : Str) : replCode m = replClaim m := by
  rw [replCode, replClaim, penalty_eq_fractionClaim]
  congr 1
  exact floor_max_one _

theorem interScanF_congr (r1 r2 : Str → Str) (h : ∀ m, r1 m = r2 m) :
    ∀ fuel (s : Str), interScanF r1 fuel s = interScanF r2 fuel s := by
  intro fuel
  induction fuel with
  | zero => intro s; simp [interScanF]
  | succ fuel ih =>
    intro s
    match s with
    | [] => simp [interScanF]
    | c :: rest =>
      by_cases h1 : 2 ≤ ldCount (c :: rest)
      · simp [interScanF, h1, h, ih]
      · by_cases h2 : 2 ≤ dlCount (c :: rest)
        · simp [interScanF, h1, h2, h, ih]
        · simp [interScanF, h1, h2, ih]

theorem enumAll_map_fst (seen l : List α) : (enumAll seen l).map Prod.fst = l := by
  induction l generalizing seen with
  | nil => simp [enumAll]
  | cons x xs ih => simp [enumAll, ih]

theorem mem_enumAll {x : α} {r : List α} :
    ∀ {l seen : List α},
      (x, r) ∈ enumAll seen l ↔ ∃ l1 l2, l = l1 ++ x :: l2 ∧ r = seen ++ (l1 ++ l2) := by
  intro l
  induction l with
  | nil => intro seen; simp [enumAll]
  | cons y ys ih =>
    intro seen
    simp only [enumAll, List.mem_cons, ih]
    constructor
    · rintro (h | ⟨l1, l2, hl, hr⟩)
      · obtain ⟨hx, hr⟩ := Prod.mk.injEq .. ▸ h
        exact ⟨[], ys, by rw [hx]; rfl, by simp [hr]⟩
      · exact ⟨y :: l1, l2, by simp [hl], by simp [hr]⟩
    · rintro ⟨l1, l2, hl, hr⟩
      cases l1 with
      | nil =>
        left
        simp only [List.nil_append] at hl hr
        cases hl
        simp [hr]
      | cons a l1' =>
        right
        simp only [List.cons_append, List.cons.injEq] at hl
        obtain ⟨rfl, hys⟩ := hl
        exact ⟨l1', l2, hys, by simp [hr]⟩

theorem candsAux_eq_enumAll [DecidableEq α] :
    ∀ (l seen : List α) (prev : Option α),
      (∀ p, prev = some p → p ∈ seen) → (seen ++ l).Nodup →
        candsAux seen prev l = enumAll seen l := by
  intro l
  induction l with
  | nil => intro seen prev _ _; simp [candsAux, enumAll]
  | cons x xs ih =>
    intro seen prev hprev hnd
    have hx : ¬ prev = some x := by
      intro h
      have hmem := hprev x h
      exact List.disjoint_of_nodup_append hnd hmem (List.mem_cons_self x xs)
    simp only [candsAux, enumAll, if_neg hx]
    congr 1
    apply ih
    · intro p hp
      cases hp
      simp
    · rw [List.append_assoc]
      simpa using hnd

theorem enumAll_facts {x : α} {r l : List α} (hnd : l.Nodup)
    (hmem : (x, r) ∈ enumAll [] l) :
    (x :: r).Perm l ∧ r.Nodup ∧ r.length + 1 = l.length := by
  obtain ⟨l1, l2, hl, hr⟩ := mem_enumAll.mp hmem
  subst hl
  simp only [List.nil_append] at hr
  subst hr
  refine ⟨List.perm_middle.symm, ?_, by simp; omega⟩
  have hsub : (l1 ++ l2).Sublist (l1 ++ x :: l2) :=
    (List.sublist_cons_self x l2).append_left l1
  exact hnd.sublist hsub

theorem mem_generateF [DecidableEq α] :
    ∀ (fuel : Nat) (l out q : List α), l.Nodup → l.length ≤ fuel →
      (q ∈ generateF fuel l out ↔ ∃ p, p.Perm l ∧ q = out ++ p) := by
  intro fuel
  induction fuel with
  | zero =>
    intro l out q _ hlen
    have hl : l = [] := List.length_eq_zero.mp (Nat.le_zero.mp hlen)
    subst hl
    simp [generateF, List.perm_nil]
  | succ fuel ih =>
    intro l out q hnd hlen
    by_cases hl : l = []
    · subst hl
      simp [generateF, List.perm_nil]
    · simp only [generateF, if_neg hl]
      rw [candsAux_eq_enumAll l [] none (by simp) (by simpa using hnd)]
      rw [List.mem_flatMap]
      constructor
      · rintro ⟨⟨x, r⟩, hmem, hq⟩
        obtain ⟨hperm, hrnd, hrlen⟩ := enumAll_facts hnd hmem
        obtain ⟨p', hp', rfl⟩ := (ih r (out ++ [x]) q hrnd (by omega)).mp hq
        exact ⟨x :: p', (hp'.cons x).trans hperm, by simp⟩
      · rintro ⟨p, hperm, rfl⟩
        have hpne : p ≠ [] := by
          intro h
          subst h
          exact hl (List.perm_nil.mp hperm.symm)
        obtain ⟨x, p', rfl⟩ := List.exists_cons_of_ne_nil hpne
        have hxl : x ∈ l := hperm.mem_iff.mp (List.mem_cons_self x p')
        obtain ⟨l1, l2, rfl⟩ := List.append_of_mem hxl
        have hmem : (x, l1 ++ l2) ∈ enumAll ([] : List α) (l1 ++ x :: l2) :=
          mem_enumAll.mpr ⟨l1, l2, rfl, by simp⟩
        obtain ⟨_, hrnd, hrlen⟩ := enumAll_facts hnd hmem
        have hperm' : p'.Perm (l1 ++ l2) :=
          (hperm.trans List.perm_middle).cons_inv
        refine ⟨(x, l1 ++ l2), hmem, ?_⟩
        exact (ih (l1 ++ l2) (out ++ [x]) _ hrnd (by omega)).mpr ⟨p', hperm', by simp⟩

theorem nodup_generateF [DecidableEq α] :
    ∀ (fuel : Nat) (l out : List α), l.Nodup → l.length ≤ fuel →
      (generateF fuel l out).Nodup := by
  intro fuel
  induction fuel with
  | zero => intro l out _ _; simp [generateF]
  | succ fuel ih =>
    intro l out hnd hlen
    by_cases hl : l = []
    · subst hl; simp [generateF]
    · simp only [generateF, if_neg hl]
      rw [candsAux_eq_enumAll l [] none (by simp) (by simpa using hnd)]
      rw [List.nodup_flatMap]
      constructor
      · intro e he
        obtain ⟨_, hrnd, hrlen⟩ := enumAll_facts (x := e.1) (r := e.2) hnd (by simpa using he)
        exact ih e.2 (out ++ [e.1]) hrnd (by omega)
      · have hfst : (List.map Prod.fst (enumAll ([] : List α) l)).Nodup := by
          rw [enumAll_map_fst]; exact hnd
        have hpne : List.Pairwise (fun a b : α × List α => a.1 ≠ b.1)
            (enumAll ([] : List α) l) := List.pairwise_map.mp hfst
        refine hpne.imp_of_mem ?_
        intro a b ha hb hne q hqa hqb
        obtain ⟨_, harnd, harlen⟩ := enumAll_facts (x := a.1) (r := a.2) hnd (by simpa using ha)
        obtain ⟨_, hbrnd, hbrlen⟩ := enumAll_facts (x := b.1) (r := b.2) hnd (by simpa using hb)
        obtain ⟨pa, _, hqa'⟩ :=
          (mem_generateF fuel a.2 (out ++ [a.1]) q harnd (by omega)).mp hqa
        obtain ⟨pb, _, hqb'⟩ :=
          (mem_generateF fuel b.2 (out ++ [b.1]) q hbrnd (by omega)).mp hqb
        rw [hqa'] at hqb'
        rw [List.append_assoc, List.append_assoc] at hqb'
        have := List.append_cancel_left hqb'
        simp only [List.singleton_append, List.cons.injEq] at this
        exact hne this.1

theorem length_generateF [DecidableEq α] :
    ∀ (fuel : Nat) (l out : List α), l.Nodup → l.length ≤ fuel →
      (generateF fuel l out).length = l.length.factorial := by
  intro fuel
  induction fuel with
  | zero =>
    intro l out _ hlen
    have hl : l = [] := List.length_eq_zero.mp (Nat.le_zero.mp hlen)
    subst hl
    simp [generateF, Nat.factorial]
  | succ fuel ih =>
    intro l out hnd hlen
    by_cases hl : l = []
    · subst hl; simp [generateF, Nat.factorial]
    · simp only [generateF, if_neg hl]
      rw [candsAux_eq_enumAll l [] none (by simp) (by simpa using hnd)]
      rw [List.length_flatMap]
      have hcong : ∀ e ∈ enumAll ([] : List α) l,
          (List.length ∘ fun p : α × List α => generateF fuel p.2 (out ++ [p.1])) e =
            (Function.const (α × List α) ((l.length - 1).factorial)) e := by
        intro e he
        obtain ⟨_, hrnd, hrlen⟩ := enumAll_facts (x := e.1) (r := e.2) hnd (by simpa using he)
        simp only [Function.comp_apply, Function.const_apply]
        rw [ih e.2 (out ++ [e.1]) hrnd (by omega)]
        congr 1
        omega
      rw [List.map_congr_left hcong, List.map_const, List.sum_replicate]
      have hclen : (enumAll ([] : List α) l).length = l.length := by
        have := congrArg List.length (enumAll_map_fst ([] : List α) l)
        simpa using this
      rw [hclen]
      obtain ⟨a, l', rfl⟩ := List.exists_cons_of_ne_nil hl
      simp only [List.length_cons, Nat.add_sub_cancel, smul_eq_mul]
      rw [Nat.factorial_succ]

theorem head?_generateF [DecidableEq α] :
    ∀ (fuel : Nat) (l out : List α), l.length ≤ fuel →
      (generateF fuel l out).head? = some (out ++ l) := by
  intro fuel
  induction fuel with
  | zero =>
    intro l out hlen
    have hl : l = [] := List.length_eq_zero.mp (Nat.le_zero.mp hlen)
    subst hl
    simp [generateF]
  | succ fuel ih =>
    intro l out hlen
    by_cases hl : l = []
    · subst hl; simp [generateF]
    · obtain ⟨x, xs, rfl⟩ := List.exists_cons_of_ne_nil hl
      simp only [generateF, if_neg hl]
      have hcand : candsAux ([] : List α) none (x :: xs) =
          (x, [] ++ xs) :: candsAux ([] ++ [x]) (some x) xs := by
        simp [candsAux]
      rw [hcand, List.flatMap_cons, List.head?_append]
      have hbranch := ih xs (out ++ [x]) (by simp at hlen; omega)
      simp only [List.nil_append] at hbranch ⊢
      rw [hbranch]
      simp

theorem insertByKey_perm (key : α → Str) (x : α) (l : List α) :
    (insertByKey key x l).Perm (x :: l) := by
  induction l with
  | nil => simp [insertByKey]
  | cons y ys ih =>
    by_cases h : lexLeStr (key x) (key y)
    · simp [insertByKey, h]
    · simp only [insertByKey, h, if_false]
      exact (ih.cons y).trans (List.Perm.swap x y ys)

theorem jsSort_perm (key : α → Str) (l : List α) : (jsSort key l).Perm l := by
  induction l with
  | nil => simp [jsSort]
  | cons x xs ih => exact (insertByKey_perm key x (jsSort key xs)).trans (ih.cons x)

theorem sanitizedVersions_ne_nil (p : Str) (sl : List (List (Str → Str))) (h : sl ≠ []) :
    sanitizedVersions p sl ≠ [] := by
  obtain ⟨a, rest, rfl⟩ := List.exists_cons_of_ne_nil h
  simp [sanitizedVersions, dedupFirst, dedupFirstF]

theorem foldl_add_eq_sum (f : Str → ℚ) (l : List Str) :
    ∀ acc : ℚ, l.foldl (fun a v => a + f v) acc = acc + (l.map f).sum := by
  induction l with
  | nil => intro acc; simp
  | cons v vs ih => intro acc; simp [ih, add_assoc]

theorem jsMin_eq_getD_min (l : List ℚ) (h : l ≠ []) : jsMin l = (l.min?).getD 0 := by
  obtain ⟨x, xs, rfl⟩ := List.exists_cons_of_ne_nil h
  rfl

theorem startsWithCI_iff (pat s : Str) : startsWithCI pat s = true ↔ occursAtCI pat s 0 := by
  simp [startsWithCI, occursAtCI]

theorem findCIIdx_some_occurs (pat : Str) :
    ∀ (s : Str) (i : Nat), findCIIdx pat s = some i → occursAtCI pat s i := by
  intro s
  induction s with
  | nil =>
    intro i h
    simp only [findCIIdx] at h
    by_cases hs : startsWithCI pat [] = true
    · rw [if_pos hs] at h
      cases h
      exact (startsWithCI_iff pat []).mp hs
    · rw [if_neg hs] at h
      cases h
  | cons c rest ih =>
    intro i h
    simp only [findCIIdx] at h
    by_cases hs : startsWithCI pat (c :: rest) = true
    · rw [if_pos hs] at h
      cases h
      exact (startsWithCI_iff pat (c :: rest)).mp hs
    · rw [if_neg hs] at h
      cases hfind : findCIIdx pat rest with
      | none => rw [hfind] at h; cases h
      | some j =>
        rw [hfind] at h
        simp only [Option.map_some'] at h
        cases h
        obtain ⟨hb, he⟩ := ih j hfind
        refine ⟨by simp only [List.length_cons]; omega, ?_⟩
        simpa using he

theorem findCIIdx_isSome_of_occurs (pat : Str) :
    ∀ (s : Str) (i : Nat), occursAtCI pat s i → (findCIIdx pat s).isSome := by
  intro s
  induction s with
  | nil =>
    intro i hocc
    obtain ⟨hb, _⟩ := hocc
    simp only [List.length_nil] at hb
    have hp0 : pat.length = 0 := by omega
    have hpnil : pat = [] := List.length_eq_zero.mp hp0
    subst hpnil
    simp [findCIIdx, startsWithCI]
  | cons c rest ih =>
    intro i hocc
    simp only [findCIIdx]
    by_cases hs : startsWithCI pat (c :: rest) = true
    · rw [if_pos hs]; rfl
    · rw [if_neg hs]
      cases i with
      | zero => exact absurd ((startsWithCI_iff pat (c :: rest)).mpr hocc) hs
      | succ j =>
        obtain ⟨hb, he⟩ := hocc
        have hocc' : occursAtCI pat rest j := by
          refine ⟨by simp at hb; omega, ?_⟩
          simpa using he
        have := ih j hocc'
        cases hfind : findCIIdx pat rest with
        | none => rw [hfind] at this; simp at this
        | some k => simp [hfind]

theorem replaceAllF_nil (find : Str → Option (Nat × Nat)) :
    ∀ fuel, replaceAllF find fuel [] = [] := by
  intro fuel
  induction fuel with
  | zero => rfl
  | succ fuel ih =>
    simp only [replaceAllF]
    cases find [] with
    | none => rfl
    | some im => simp [ih]

theorem replaceAllF_fuel (find : Str → Option (Nat × Nat)) :
    ∀ (n : Nat) (s : Str), s.length ≤ n → ∀ f1 f2, s.length < f1 → s.length < f2 →
      replaceAllF find f1 s = replaceAllF find f2 s := by
  intro n
  induction n with
  | zero =>
    intro s hs f1 f2 _ _
    have : s = [] := List.length_eq_zero.mp (Nat.le_zero.mp hs)
    subst this
    rw [replaceAllF_nil, replaceAllF_nil]
  | succ n ih =>
    intro s hs f1 f2 h1 h2
    cases s with
    | nil => rw [replaceAllF_nil, replaceAllF_nil]
    | cons c rest =>
      obtain ⟨g1, rfl⟩ : ∃ g1, f1 = g1 + 1 := ⟨f1 - 1, by omega⟩
      obtain ⟨g2, rfl⟩ : ∃ g2, f2 = g2 + 1 := ⟨f2 - 1, by omega⟩
      cases hf : find (c :: rest) with
      | none => simp only [replaceAllF, hf]
      | some im =>
        simp only [replaceAllF, hf]
        have hd : ((c :: rest).drop (im.1 + max im.2 1)).length ≤ n := by
          rw [List.length_drop]
          simp only [List.length_cons]
          have : 1 ≤ max im.2 1 := le_max_right _ _
          simp only [List.length_cons] at hs
          omega
        have hb1 : ((c :: rest).drop (im.1 + max im.2 1)).length < g1 := by
          rw [List.length_drop]
          simp only [List.length_cons] at h1 ⊢
          have : 1 ≤ max im.2 1 := le_max_right _ _
          omega
        have hb2 : ((c :: rest).drop (im.1 + max im.2 1)).length < g2 := by
          rw [List.length_drop]
          simp only [List.length_cons] at h2 ⊢
          have : 1 ≤ max im.2 1 := le_max_right _ _
          omega
        rw [ih _ hd g1 g2 hb1 hb2]

/-! ## Claim theorems -/

/-- C1: the spec says a caller-supplied `strengthRanges` raises
`InvalidRangeError` if and only if the ranges are invalid, and in particular
that every valid ascending, non-overlapping list (including its first range)
constructs successfully.  The code initializes `previousMax ??= min` and then
tests `min <= previousMax`, so the very first range always fails the check:
construction with any non-empty caller-supplied list — valid or not — throws. -/
theorem setupStrengthRanges_errors_on_any_custom :
    ∀ (r : StrengthRange) (rs : List StrengthRange),
      setupStrengthRanges (some (r :: rs)) = Except.error (r.lo, r.hi) := by
  intro r rs
  by_cases h : r.hi < (r.lo : WithTop ℚ)
  · simp [setupStrengthRanges, rangesLoop, h, Except.map]
  · simp [setupStrengthRanges, rangesLoop, h, Except.map]

/-- C3: `stripInterleavingPairs` rewrites each maximal interleaved run to a
prefix of length `max(1, floor(runLength * (1 - f)))`, where `f` starts at
0.25 and gains 0.25 for each of: digits matching the letters' 1-indexed
alphabet positions, all letters sharing one case, and the letters forming a
strictly ascending or descending alphabetic sequence; characters outside
runs are unchanged (the shared scanner), and a matched segment is never
reduced below 1 character. -/
theorem stripInterleavingPairs_spec :
    (∀ s : Str, stripInterleavingPairs s = interleavingSpec s) ∧
      (∀ m : Str, 1 ≤ m.length → 1 ≤ (replCode m).length) := by
  constructor
  · intro s
    unfold stripInterleavingPairs interleavingSpec
    exact interScanF_congr _ _ replCode_eq_replClaim s.length s
  · intro m hm
    rw [replCode, List.length_take]
    have h1 : 1 ≤ Nat.floor (max 1 ((m.length : ℚ) * (1 - penalty m))) :=
      Nat.le_floor (by exact_mod_cast le_max_left 1 _)
    exact le_min h1 hm

/-- Witness for C3 at a concrete input. -/
theorem stripInterleavingPairs_spec_witness :
    stripInterleavingPairs ("a1b2c3".toList) = interleavingSpec ("a1b2c3".toList) ∧
      1 ≤ (replCode ("a1b2c3".toList)).length :=
  ⟨stripInterleavingPairs_spec.1 _, stripInterleavingPairs_spec.2 _ (by decide)⟩

/-- C6: `stripSequentialStrings` detects runs on the lower-cased image of the
input but the surviving output characters are selected, in place, from the
original input (so each kept character retains its original casing); in
particular the output is a sublist of the input. -/
theorem stripSequentialStrings_casing_spec :
    ∀ (s : Str) (d : Int),
      stripSequentialStrings s d = maskSelect (keepMask d (s.map lowAscii)) s ∧
        (stripSequentialStrings s d).Sublist s :=
  fun s d => ⟨stripSequentialStrings_eq_maskSelect s d, stripSequentialStrings_sublist s d⟩

/-- C7: `stripRepeatedStrings` matches repeats case-sensitively, leaving
`"aAa"` unchanged, while `stripSequentialStrings` detects sequences
case-insensitively, collapsing `"aBcDeF"` to `"a"`. -/
theorem case_sensitivity_contract :
    stripRepeatedStrings ("aAa".toList) = "aAa".toList ∧
      stripSequentialStrings ("aBcDeF".toList) 1 = "a".toList := by
  decide

/-- C8 counterexample: `stripRepeatedStrings` is not idempotent.  On
`"ababcbc"` the length-2 pass collapses `"abab"` to `"ab"`, producing
`"abcbc"`, whose fresh `"bcbc"` repeat is never rechecked; a second
application collapses it to `"abc"`. -/
theorem stripRepeatedStrings_not_idempotent :
    stripRepeatedStrings (stripRepeatedStrings ("ababcbc".toList)) ≠
      stripRepeatedStrings ("ababcbc".toList) := by
  decide

/-- C8 (amended): a second application of `stripRepeatedStrings` yields a
result no longer than the first application's output (but not necessarily
equal to it: one application need not land on a fixed point). -/
theorem stripRepeatedStrings_twice_length (s : Str) :
    (stripRepeatedStrings (stripRepeatedStrings s)).length ≤
      (stripRepeatedStrings s).length :=
  stripRepeatedStrings_length_le _

/-- C9: every sanitization transformer is length-non-increasing:
`stripRepeatedStrings`, `stripSequentialStrings` in either direction,
`stripInterleavingPairs`, and the global pattern replacement for every
matcher whose matches fit inside the searched string (in particular every
literal or regex rejected pattern). -/
theorem transformers_length_monotone :
    (∀ s : Str, (stripRepeatedStrings s).length ≤ s.length) ∧
      (∀ (s : Str) (d : Int), (stripSequentialStrings s d).length ≤ s.length) ∧
      (∀ s : Str, (stripInterleavingPairs s).length ≤ s.length) ∧
      ∀ (find : Str → Option (Nat × Nat)) (s : Str),
        (∀ t i m, find t = some (i, m) → i + m ≤ t.length) →
          (replaceAll find s).length ≤ s.length :=
  ⟨stripRepeatedStrings_length_le,
   fun s d => (stripSequentialStrings_sublist s d).length_le,
   stripInterleavingPairs_length_le,
   fun find s hwf => replaceAllF_length_le find hwf (s.length + 1) s⟩

/-- Witness for C9 at a concrete matcher and input. -/
theorem transformers_length_monotone_witness :
    (replaceAll (findLit ("ab".toList)) ("xAByab".toList)).length ≤
      ("xAByab".toList : Str).length :=
  transformers_length_monotone.2.2.2 (findLit ("ab".toList)) ("xAByab".toList)
    (findLit_wf ("ab".toList))

/-- C2 (amended): for every duplicate-free configured list of non-pattern
sanitizers — in particular the default four, which are distinct function
objects — the resolved pipeline set contains exactly one pipeline per
distinct ordering of that list: membership is equivalent to being a
permutation prefixed by the pattern-stripping step, the set has no
duplicates, and its size is the factorial of the sanitizer count (24 for
the default 4).  (The unrestricted claim fails for lists with repeated
entries: see the counterexample.) -/
theorem setupSanitizersList_spec {α : Type} [DecidableEq α] (key : α → Str)
    (patternStep : α) (sans : List α) (hnd : sans.Nodup) :
    (∀ q, q ∈ setupSanitizersList key patternStep sans ↔
        ∃ p, p.Perm sans ∧ q = patternStep :: p) ∧
      (setupSanitizersList key patternStep sans).Nodup ∧
      (setupSanitizersList key patternStep sans).length = sans.length.factorial ∧
      (sans.length = 4 → (setupSanitizersList key patternStep sans).length = 24) := by
  have hperm : (jsSort key sans).Perm sans := jsSort_perm key sans
  have hnd2 : (jsSort key sans).Nodup := hperm.nodup_iff.mpr hnd
  have hlen : (jsSort key sans).length = sans.length := hperm.length_eq
  refine ⟨?_, ?_, ?_, ?_⟩
  · intro q
    unfold setupSanitizersList permute
    rw [List.mem_map]
    constructor
    · rintro ⟨p, hp, rfl⟩
      obtain ⟨p', hp', hq⟩ :=
        (mem_generateF (jsSort key sans).length (jsSort key sans) [] p hnd2 (le_refl _)).mp hp
      have hpp : p = p' := by simpa using hq
      subst hpp
      exact ⟨p, hp'.trans hperm, rfl⟩
    · rintro ⟨p, hp, rfl⟩
      refine ⟨p, ?_, rfl⟩
      exact (mem_generateF (jsSort key sans).length (jsSort key sans) [] p hnd2
        (le_refl _)).mpr ⟨p, hp.trans hperm.symm, by simp⟩
  · unfold setupSanitizersList permute
    apply List.Nodup.map
    · intro a b hab
      simpa using hab
    · exact nodup_generateF _ _ [] hnd2 (le_refl _)
  · unfold setupSanitizersList permute
    rw [List.length_map, length_generateF _ _ [] hnd2 (le_refl _), hlen]
  · intro h4
    unfold setupSanitizersList permute
    rw [List.length_map, length_generateF _ _ [] hnd2 (le_refl _), hlen, h4]
    rfl

/-- Witness for C2 with the four distinct default sanitizer slots. -/
theorem setupSanitizersList_spec_witness :
    List.Nodup [0, 1, 2, 3] ∧
      (setupSanitizersList digitKey 9 [0, 1, 2, 3]).length = 24 :=
  ⟨by decide, (setupSanitizersList_spec digitKey 9 [0, 1, 2, 3] (by decide)).2.2.2 rfl⟩

/-- C2 counterexample: for a configured list with a repeated entry the
pipeline set does not contain exactly one pipeline per distinct ordering.
The list `[0, 1, 0]` (the same sanitizer object passed twice, with the
middle entry stringifying identically, so the default sort leaves the
duplicates non-adjacent and the `prev === input[i]` skip never fires)
produces five pipelines with repeats instead of one pipeline for each of
the three distinct orderings. -/
theorem setupSanitizersList_dup_counterexample :
    (setupSanitizersList constKey 9 [0, 1, 0]).length = 5 ∧
      ¬ (setupSanitizersList constKey 9 [0, 1, 0]).Nodup := by
  decide

/-- C4: `Profile.entropy` equals `log2(poolSize ^ length(variant))` computed
per sanitized variant — with the original password's pool size and each
variant's length — aggregated as the minimum across variants in strict mode
and as the arithmetic mean otherwise, rounded to 2 decimal places.
(`Math.log2` on the exact power is the abstract `lg`.) -/
theorem entropy_spec (lg : ℕ → ℚ) (strict : Bool) (password : Str)
    (sanitizersList : List (List (Str → Str))) (h : sanitizersList ≠ []) :
    entropy lg strict password sanitizersList =
      entropyClaim lg strict (poolSize password)
        (sanitizedVersions password sanitizersList) := by
  have hv : sanitizedVersions password sanitizersList ≠ [] :=
    sanitizedVersions_ne_nil password sanitizersList h
  cases strict with
  | true =>
    simp only [entropy, entropyClaim, if_true]
    congr 1
    apply jsMin_eq_getD_min
    simpa using hv
  | false =>
    simp only [entropy, entropyClaim, Bool.false_eq_true, if_false]
    congr 1
    rw [foldl_add_eq_sum]
    simp

/-- Witness for C4 at a concrete password and pipeline list. -/
theorem entropy_spec_witness :
    entropy (fun _ => 0) true ("ab".toList) [[fun s => s]] =
      entropyClaim (fun _ => 0) true (poolSize ("ab".toList))
        (sanitizedVersions ("ab".toList) [[fun s => s]]) :=
  entropy_spec (fun _ => 0) true ("ab".toList) [[fun s => s]] (by simp)

/-- C5: `stripPattern` with a (nonempty) literal rejected pattern compiled
case-insensitively and globally leaves an input without occurrences
unchanged, and rewrites the leftmost occurrence to the matched text's first
character — taken from the original input, so with its original casing —
before continuing past the match (stripping all occurrences); concretely,
pattern `"ab"` sends `"xAByab"` to `"xAya"`.  For a `/…/`-delimited regex
pattern the same global replace loop runs over the compiled matcher
(abstracted as a leftmost-match oracle `find`): no match leaves the input
unchanged, and every found match is replaced by only the matched text's
first character before the scan continues past it. -/
theorem stripPattern_spec :
    (∀ pat s : Str, pat ≠ [] → (¬∃ i, occursAtCI pat s i) → stripPattern pat s = s) ∧
      (∀ (pat s : Str) (i : Nat), pat ≠ [] → findCIIdx pat s = some i →
        occursAtCI pat s i ∧
          stripPattern pat s =
            s.take i ++ (s.drop i).take 1 ++ stripPattern pat (s.drop (i + pat.length))) ∧
      stripPattern ("ab".toList) ("xAByab".toList) = "xAya".toList ∧
      (∀ (find : Str → Option (Nat × Nat)) (s : Str),
        find s = none → replaceAll find s = s) ∧
      (∀ (find : Str → Option (Nat × Nat)) (s : Str) (i m : Nat),
        find s = some (i, m) →
          replaceAll find s =
            s.take i ++ ((s.drop i).take m).take 1 ++
              replaceAll find (s.drop (i + max m 1))) := by
  refine ⟨?_, ?_, by decide, ?_, ?_⟩
  · intro pat s _ hno
    have hnone : findCIIdx pat s = none := by
      cases hf : findCIIdx pat s with
      | none => rfl
      | some j => exact absurd ⟨j, findCIIdx_some_occurs pat s j hf⟩ hno
    simp only [stripPattern, replaceAll, replaceAllF, findLit, hnone, Option.map_none']
  · intro pat s i hpat hfind
    have hocc := findCIIdx_some_occurs pat s i hfind
    refine ⟨hocc, ?_⟩
    have hp1 : 1 ≤ pat.length := by
      cases pat with
      | nil => exact absurd rfl hpat
      | cons a as => simp
    have hmax : max pat.length 1 = pat.length := Nat.max_eq_left hp1
    have hslen : 1 ≤ s.length := by
      obtain ⟨hb, _⟩ := hocc
      omega
    conv_lhs => rw [stripPattern, replaceAll]
    have hsucc : ∃ g, s.length + 1 = g + 1 := ⟨s.length, rfl⟩
    simp only [replaceAllF, findLit, hfind, Option.map_some', hmax]
    congr 1
    congr 1
    · rw [List.take_take]
      congr 1
      omega
    · rw [stripPattern, replaceAll]
      apply replaceAllF_fuel _ (s.drop (i + pat.length)).length _ (le_refl _)
      · rw [List.length_drop]
        obtain ⟨hb, _⟩ := hocc
        omega
      · omega
  · intro find s hf
    rw [replaceAll]
    simp only [replaceAllF, hf]
  · intro find s i m hf
    cases s with
    | nil =>
      simp only [List.take_nil, List.drop_nil, List.nil_append]
    | cons c rest =>
      have key : ∀ g : Nat,
          replaceAllF find (g + 1) (c :: rest) =
            (c :: rest).take i ++ (((c :: rest).drop i).take m).take 1 ++
              replaceAllF find g ((c :: rest).drop (i + max m 1)) := by
        intro g
        simp only [replaceAllF, hf]
      conv_lhs => rw [replaceAll]
      rw [key ((c :: rest).length)]
      have htail :
          replaceAllF find (c :: rest).length ((c :: rest).drop (i + max m 1)) =
            replaceAll find ((c :: rest).drop (i + max m 1)) := by
        rw [replaceAll]
        apply replaceAllF_fuel find ((c :: rest).drop (i + max m 1)).length _ (le_refl _)
        · rw [List.length_drop]
          simp only [List.length_cons]
          have := le_max_right m 1
          omega
        · omega
      rw [htail]

/-- Witness for C5 at concrete patterns, matchers and inputs. -/
theorem stripPattern_spec_witness :
    stripPattern ("zz".toList) ("abc".toList) = "abc".toList ∧
      (occursAtCI ("ab".toList) ("xAByab".toList) 1 ∧
        stripPattern ("ab".toList) ("xAByab".toList) =
          ("xAByab".toList : Str).take 1 ++ (("xAByab".toList : Str).drop 1).take 1 ++
            stripPattern ("ab".toList) (("xAByab".toList : Str).drop 3)) ∧
      replaceAll (findLit ("zz".toList)) ("abc".toList) = "abc".toList ∧
      replaceAll (findLit ("ab".toList)) ("xAByab".toList) =
        ("xAByab".toList : Str).take 1 ++
          ((("xAByab".toList : Str).drop 1).take 2).take 1 ++
          replaceAll (findLit ("ab".toList)) (("xAByab".toList : Str).drop (1 + max 2 1)) := by
  refine ⟨?_, ?_, ?_, ?_⟩
  · apply stripPattern_spec.1 ("zz".toList) ("abc".toList) (by decide)
    rintro ⟨i, hi⟩
    have h1 : i + 2 ≤ 3 := by simpa using hi.1
    have h2 : i ≤ 1 := by omega
    interval_cases i
    · exact absurd hi (by unfold occursAtCI; decide)
    · exact absurd hi (by unfold occursAtCI; decide)
  · exact stripPattern_spec.2.1 ("ab".toList) ("xAByab".toList) 1 (by decide) (by decide)
  · exact stripPattern_spec.2.2.2.1 (findLit ("zz".toList)) ("abc".toList) (by decide)
  · exact stripPattern_spec.2.2.2.2 (findLit ("ab".toList)) ("xAByab".toList) 1 2 (by decide)

/-- C10: `permute` sorts the caller's array in place before generating —
after the call the array holds `jsSort key arr` (same elements, reordered;
observably different on `[2, 1]`), and the first emitted permutation is the
sorted order, not the caller's order. -/
theorem permute_mutates_and_sorts :
    (∀ {α : Type} [DecidableEq α] (key : α → Str) (arr : List α),
        (permute key arr).1 = jsSort key arr ∧ (permute key arr).1.Perm arr ∧
          (permute key arr).2.head? = some (jsSort key arr)) ∧
      (permute digitKey [2, 1]).1 = [1, 2] ∧ (permute digitKey [2, 1]).1 ≠ [2, 1] := by
  refine ⟨?_, by decide, by decide⟩
  intro α _ key arr
  refine ⟨rfl, jsSort_perm key arr, ?_⟩
  have h := head?_generateF (jsSort key arr).length (jsSort key arr) [] (le_refl _)
  simpa using h

end PassProfiler
